import Mathlib

/-!
Verification of the coplanar-waveguide (CPW) quasi-static media model of
`skrf/media/cpw.py`: the parameter store, the quasi-static shape parameters
(`ep_re`, `k1`, `K_ratio`), the conductor-loss term (`alpha_conductor`), the
characteristic impedance (`Z0`) and the propagation constant (`gamma`).

Numeric machine values are modelled as real numbers; a Python `None` result
and a raised exception are both modelled as `Option.none` of the
corresponding accessor.  The two external special-function collaborators,
`scipy.special.ellipk` and `skrf.tlineFunctions.surface_resistivity`, are
not part of the analysed code and enter as abstract function parameters
(`ek` for the complete elliptic integral of the first kind, `sr` for the
surface-resistivity function of frequency, resistivity and relative
permeability), exactly as the spec treats them (consumed collaborator
contracts).
-/

open Real

noncomputable section

/-- Vacuum permittivity (F/m), the value of `scipy.constants.epsilon_0`. -/
def epsilon_0 : ℝ := 8.8541878128e-12

/-- Vacuum permeability (H/m), the value of `scipy.constants.mu_0`. -/
def mu_0 : ℝ := 1.25663706212e-6

/-- The CPW parameter store: the fields stored by `CPW.__init__` in
`skrf/media/cpw.py` (center-conductor width `w`, gap width `s`, substrate
relative permittivity `ep_r`, optional conductor thickness `t` and
resistivity `rho`), together with the frequency sweep `frequency.f` of the
underlying media, a list of sample frequencies in Hz.  This is the
scalar-geometry instantiation; the per-frequency-array instantiation of the
same source is `CPWarr` below. -/
structure CPW where
  w : ℝ
  s : ℝ
  ep_r : ℝ
  t : Option ℝ
  rho : Option ℝ
  frequency : List ℝ

/-- `CPW.ep_re` of `skrf/media/cpw.py`: `(ep_r + 1)/2`. -/
def CPW.ep_re (c : CPW) : ℝ := (c.ep_r + 1) / 2

/-- `CPW.k1` of `skrf/media/cpw.py`: `w/(w + 2*s)`. -/
def CPW.k1 (c : CPW) : ℝ := c.w / (c.w + 2 * c.s)

/-- The argument of the logarithm shared by both branches of the `K_ratio`
approximation in `skrf/media/cpw.py`: `2*(1+sqrt(k1))/(1-sqrt(k1))`. -/
def logArg (k1 : ℝ) : ℝ := 2 * (1 + Real.sqrt k1) / (1 - Real.sqrt k1)

/-- The first branch of `CPW.K_ratio` (taken when `0 <= k1 <= 1/sqrt 2`):
`pi / log(2*(1+sqrt(k1))/(1-sqrt(k1)))`. -/
def Kbranch1 (k1 : ℝ) : ℝ := Real.pi / Real.log (logArg k1)

/-- The second branch of `CPW.K_ratio` (taken when `1/sqrt 2 < k1 <= 1`):
`log(2*(1+sqrt(k1))/(1-sqrt(k1))) / pi`. -/
def Kbranch2 (k1 : ℝ) : ℝ := Real.log (logArg k1) / Real.pi

/-- `CPW.K_ratio` of `skrf/media/cpw.py`.  The Python property tests
`0 <= k1 <= 1/sqrt(2)` and `1/sqrt(2) < k1 <= 1` and falls through (an
implicit `return None`) when both guards fail; the fall-through is `none`. -/
def CPW.K_ratio (c : CPW) : Option ℝ :=
  if 0 ≤ c.k1 ∧ c.k1 ≤ 1 / Real.sqrt 2 then some (Kbranch1 c.k1)
  else if 1 / Real.sqrt 2 < c.k1 ∧ c.k1 ≤ 1 then some (Kbranch2 c.k1)
  else none

/-- The value `K_ratio` yields anywhere on `[0, 1]`, as a total function of
the modulus: the branch selected by the source's guards. -/
def Kval (k1 : ℝ) : ℝ :=
  if k1 ≤ 1 / Real.sqrt 2 then Kbranch1 k1 else Kbranch2 k1

/-- `CPW.alpha_conductor` of `skrf/media/cpw.py`.  Raises (modelled `none`)
when `rho` or `t` is unset; otherwise maps the closed-form attenuation
formula over the frequency sweep.  `ek` is `scipy.special.ellipk` and `sr`
is `skrf.tlineFunctions.surface_resistivity` applied as
`sr f rho mu_r`; the source fixes `mu_r = 1`. -/
def CPW.alpha_conductor (ek : ℝ → ℝ) (sr : ℝ → ℝ → ℝ → ℝ) (c : CPW) :
    Option (List ℝ) :=
  match c.rho, c.t with
  | some rho, some t =>
    some (c.frequency.map (fun f =>
      let r_s := sr f rho 1
      let a := c.w / 2
      let b := c.s + c.w / 2
      let k1 := c.k1
      r_s * Real.sqrt c.ep_re /
          (480 * Real.pi * ek k1 * ek (Real.sqrt (1 - k1 ^ 2)) * (1 - k1 ^ 2)) *
        (1 / a * (Real.pi + Real.log (8 * Real.pi * a * (1 - k1) / (t * (1 + k1)))) +
         1 / b * (Real.pi + Real.log (8 * Real.pi * b * (1 - k1) / (t * (1 + k1)))))))
  | _, _ => none

/-- `CPW.Z0` of `skrf/media/cpw.py`:
`(30*pi/sqrt(ep_re) * K_ratio) * ones(len(frequency.f), dtype=complex)`.
When `K_ratio` fell through to `None` the multiplication raises, modelled
by mapping over the `Option`. -/
def CPW.Z0 (c : CPW) : Option (List ℂ) :=
  (c.K_ratio).map (fun r =>
    c.frequency.map (fun _ => ((30 * Real.pi / Real.sqrt c.ep_re * r : ℝ) : ℂ)))

/-- `CPW.gamma` of `skrf/media/cpw.py`: `beta + alpha` with
`beta = 1j*2*pi*f*sqrt(ep_re*epsilon_0*mu_0)` and `alpha` equal to
`alpha_conductor` when both `rho` and `t` are set, else `zeros(len(beta))`. -/
def CPW.gamma (ek : ℝ → ℝ) (sr : ℝ → ℝ → ℝ → ℝ) (c : CPW) : Option (List ℂ) :=
  let beta := c.frequency.map (fun f =>
    Complex.I * ((2 * Real.pi * f * Real.sqrt (c.ep_re * epsilon_0 * mu_0) : ℝ) : ℂ))
  if c.rho.isSome && c.t.isSome then
    (c.alpha_conductor ek sr).map (fun al =>
      List.zipWith (fun (b : ℂ) (a : ℝ) => b + (a : ℂ)) beta al)
  else some beta

/-- The parameter store built by `CPW.__init__` when no geometry or material
argument is given: the defaults `w=70`, `s=4`, `ep_r=3`, `t=None`,
`rho=None` of `skrf/media/cpw.py`. -/
def CPW.mkDefault (frequency : List ℝ) : CPW :=
  ⟨70, 4, 3, none, none, frequency⟩

/-- The CPW parameter store with per-frequency numpy-array geometry and
material fields: the same source (`skrf/media/cpw.py`) instantiated with
array-valued `w`, `s`, `ep_r`, all aligned with the frequency sweep. -/
structure CPWarr where
  w : List ℝ
  s : List ℝ
  ep_r : List ℝ
  t : Option ℝ
  rho : Option ℝ
  frequency : List ℝ

/-- `CPW.k1` on array geometry: numpy evaluates `w/(w + 2*s)` elementwise. -/
def CPWarr.k1 (c : CPWarr) : List ℝ :=
  List.zipWith (fun w s => w / (w + 2 * s)) c.w c.s

/-- `CPW.ep_re` on array permittivity: `(ep_r + 1)/2` elementwise. -/
def CPWarr.ep_re (c : CPWarr) : List ℝ := c.ep_r.map (fun e => (e + 1) / 2)

/-- `CPW.K_ratio` on array geometry.  The guard `0 <= k1 <= 1/sqrt(2)`
coerces the comparison array to a single boolean, which numpy permits only
for size-one arrays; any other size raises `ValueError` (modelled `none`).
A size-one array follows the scalar branch logic elementwise, and when both
guards fail the property falls through to Python `None` (also `none`). -/
def CPWarr.K_ratio (c : CPWarr) : Option (List ℝ) :=
  match c.k1 with
  | [x] =>
    if 0 ≤ x ∧ x ≤ 1 / Real.sqrt 2 then some [Kbranch1 x]
    else if 1 / Real.sqrt 2 < x ∧ x ≤ 1 then some [Kbranch2 x]
    else none
  | _ => none

/-- `CPW.alpha_conductor` on array geometry: the same closed-form
expression evaluated elementwise across the aligned arrays. -/
def CPWarr.alpha_conductor (ek : ℝ → ℝ) (sr : ℝ → ℝ → ℝ → ℝ) (c : CPWarr) :
    Option (List ℝ) :=
  match c.rho, c.t with
  | some rho, some t =>
    some (List.zipWith (fun f (g : ℝ × ℝ × ℝ) =>
      let r_s := sr f rho 1
      let a := g.1 / 2
      let b := g.2.1 + g.1 / 2
      let k1 := g.1 / (g.1 + 2 * g.2.1)
      r_s * Real.sqrt ((g.2.2 + 1) / 2) /
          (480 * Real.pi * ek k1 * ek (Real.sqrt (1 - k1 ^ 2)) * (1 - k1 ^ 2)) *
        (1 / a * (Real.pi + Real.log (8 * Real.pi * a * (1 - k1) / (t * (1 + k1)))) +
         1 / b * (Real.pi + Real.log (8 * Real.pi * b * (1 - k1) / (t * (1 + k1))))))
      c.frequency (c.w.zip (c.s.zip c.ep_r)))
  | _, _ => none

/-- `CPW.Z0` on array geometry: the scalar `30*pi/sqrt(ep_re)` factor
becomes elementwise over `ep_re`, broadcast against the (size-one)
`K_ratio` array; a `K_ratio` failure propagates. -/
def CPWarr.Z0 (c : CPWarr) : Option (List ℂ) :=
  (c.K_ratio).map (fun rs =>
    c.ep_re.map (fun e => ((30 * Real.pi / Real.sqrt e * rs.headI : ℝ) : ℂ)))

/-- `CPW.gamma` on array geometry: `beta` is elementwise over the aligned
frequency and permittivity arrays, and `alpha` is the array
`alpha_conductor` when both `rho` and `t` are set, else zero. -/
def CPWarr.gamma (ek : ℝ → ℝ) (sr : ℝ → ℝ → ℝ → ℝ) (c : CPWarr) :
    Option (List ℂ) :=
  let beta := List.zipWith (fun f e =>
    Complex.I * ((2 * Real.pi * f * Real.sqrt (((e + 1) / 2) * epsilon_0 * mu_0) : ℝ) : ℂ))
    c.frequency c.ep_r
  if c.rho.isSome && c.t.isSome then
    (c.alpha_conductor ek sr).map (fun al =>
      List.zipWith (fun (b : ℂ) (a : ℝ) => b + (a : ℂ)) beta al)
  else some beta

/-! ### Helper lemmas (shared between claim theorems) -/

lemma sqrt_two_pos : (0 : ℝ) < Real.sqrt 2 := Real.sqrt_pos.2 (by norm_num)

lemma one_le_sqrt_two : (1 : ℝ) ≤ Real.sqrt 2 := by
  have h := Real.sqrt_le_sqrt (show (1 : ℝ) ≤ 2 by norm_num)
  rwa [Real.sqrt_one] at h

lemma inv_sqrt_two_le_one : 1 / Real.sqrt 2 ≤ 1 := by
  rw [div_le_one sqrt_two_pos]
  exact one_le_sqrt_two

lemma inv_sqrt_two_pos : 0 < 1 / Real.sqrt 2 := by positivity

/-- On `[0, 1]` the source's `K_ratio` takes the branch selected by `Kval`. -/
lemma K_ratio_eq_Kval (c : CPW) (h0 : 0 ≤ c.k1) (h1 : c.k1 ≤ 1) :
    c.K_ratio = some (Kval c.k1) := by
  unfold CPW.K_ratio Kval
  by_cases h : c.k1 ≤ 1 / Real.sqrt 2
  · rw [if_pos ⟨h0, h⟩, if_pos h]
  · rw [if_neg (fun hc => h hc.2), if_pos ⟨lt_of_not_le h, h1⟩, if_neg h]

/-- With positive widths the modulus `k1 = w/(w+2s)` lies strictly
inside `(0, 1)`. -/
lemma k1_mem_Ioo (c : CPW) (hw : 0 < c.w) (hs : 0 < c.s) :
    0 < c.k1 ∧ c.k1 < 1 := by
  unfold CPW.k1
  constructor
  · exact div_pos hw (by linarith)
  · rw [div_lt_one (by linarith)]
    linarith

/-- For a modulus in `(0, 1)` the logarithm argument exceeds one. -/
lemma one_lt_logArg (k : ℝ) (h0 : 0 ≤ k) (h1 : k < 1) : 1 < logArg k := by
  unfold logArg
  have hs0 : 0 ≤ Real.sqrt k := Real.sqrt_nonneg k
  have hs1 : Real.sqrt k < 1 := by
    have := Real.sqrt_lt_sqrt h0 h1
    rwa [Real.sqrt_one] at this
  rw [lt_div_iff₀ (by linarith)]
  nlinarith

/-- Both branch values are strictly positive on `(0, 1)`. -/
lemma Kval_pos (k : ℝ) (h0 : 0 ≤ k) (h1 : k < 1) : 0 < Kval k := by
  have hlog : 0 < Real.log (logArg k) := Real.log_pos (one_lt_logArg k h0 h1)
  unfold Kval Kbranch1 Kbranch2
  by_cases h : k ≤ 1 / Real.sqrt 2
  · rw [if_pos h]; exact div_pos Real.pi_pos hlog
  · rw [if_neg h]; exact div_pos hlog Real.pi_pos

/-- When `t` or `rho` is unset, `alpha_conductor` raises (is `none`). -/
lemma alpha_conductor_none (ek : ℝ → ℝ) (sr : ℝ → ℝ → ℝ → ℝ) (c : CPW)
    (h : c.t = none ∨ c.rho = none) : c.alpha_conductor ek sr = none := by
  unfold CPW.alpha_conductor
  rcases h with h | h <;> rcases hr : c.rho with _ | rv <;> rcases ht : c.t with _ | tv <;>
    simp_all

/-- When `t` or `rho` is unset, `gamma` returns the pure lossless phase
term: each sample is `i*2*pi*f*sqrt(ep_re*epsilon_0*mu_0)`. -/
lemma gamma_eq_beta (ek : ℝ → ℝ) (sr : ℝ → ℝ → ℝ → ℝ) (c : CPW)
    (h : c.t = none ∨ c.rho = none) :
    c.gamma ek sr = some (c.frequency.map (fun f =>
      ⟨0, 2 * Real.pi * f * Real.sqrt (((c.ep_r + 1) / 2) * epsilon_0 * mu_0)⟩)) := by
  unfold CPW.gamma
  have hguard : (c.rho.isSome && c.t.isSome) = false := by
    rcases h with h | h <;> rw [h] <;> simp
  rw [hguard]
  simp only [Bool.false_eq_true, if_false, Option.some.injEq]
  refine List.map_congr_left (fun f _ => ?_)
  have : c.ep_re = (c.ep_r + 1) / 2 := rfl
  rw [this]
  apply Complex.ext <;>
    simp [Complex.mul_re, Complex.mul_im]

/-! ### Claim C1: the two branches of the elliptic ratio -/

/-- C1: for a parameter store whose modulus `k1 = w/(w+2s)` lies in `[0,1]`,
`K_ratio` returns `pi / log(2(1+sqrt k1)/(1-sqrt k1))` when
`k1 <= 1/sqrt 2` (boundary included in this first branch) and
`log(2(1+sqrt k1)/(1-sqrt k1)) / pi` when `1/sqrt 2 < k1`. -/
theorem K_ratio_branches (c : CPW) (h0 : 0 ≤ c.k1) (h1 : c.k1 ≤ 1) :
    c.k1 = c.w / (c.w + 2 * c.s) ∧
    (c.k1 ≤ 1 / Real.sqrt 2 →
      c.K_ratio = some (Real.pi /
        Real.log (2 * (1 + Real.sqrt c.k1) / (1 - Real.sqrt c.k1)))) ∧
    (1 / Real.sqrt 2 < c.k1 →
      c.K_ratio = some (Real.log
        (2 * (1 + Real.sqrt c.k1) / (1 - Real.sqrt c.k1)) / Real.pi)) := by
  refine ⟨rfl, fun hle => ?_, fun hlt => ?_⟩
  · unfold CPW.K_ratio
    rw [if_pos ⟨h0, hle⟩]
    rfl
  · unfold CPW.K_ratio
    rw [if_neg (fun hc => absurd hlt (not_lt.2 hc.2)), if_pos ⟨hlt, h1⟩]
    rfl

/-- Witness for C1 at the concrete store `w=2, s=3` (so `k1 = 1/4`, first
branch, with `sqrt(1/4) = 1/2` and log argument `6`). -/
theorem K_ratio_branches_witness :
    (0 : ℝ) ≤ (CPW.mk 2 3 3 none none [1]).k1 ∧
    (CPW.mk 2 3 3 none none [1]).K_ratio = some (Real.pi / Real.log 6) := by
  have hk : (CPW.mk 2 3 3 none none [1]).k1 = 1 / 4 := by
    unfold CPW.k1; norm_num
  have h0 : (0 : ℝ) ≤ (CPW.mk 2 3 3 none none [1]).k1 := by rw [hk]; norm_num
  have h1 : (CPW.mk 2 3 3 none none [1]).k1 ≤ 1 := by rw [hk]; norm_num
  have hle : (CPW.mk 2 3 3 none none [1]).k1 ≤ 1 / Real.sqrt 2 := by
    rw [hk]
    have h2 : Real.sqrt 2 ≤ 2 := by
      nlinarith [Real.sq_sqrt (show (0 : ℝ) ≤ 2 by norm_num), Real.sqrt_nonneg 2]
    rw [div_le_div_iff₀ (by norm_num) sqrt_two_pos]
    nlinarith [sqrt_two_pos]
  have h := (K_ratio_branches (CPW.mk 2 3 3 none none [1]) h0 h1).2.1 hle
  refine ⟨h0, ?_⟩
  rw [h, hk]
  have hs : Real.sqrt (1 / 4 : ℝ) = 1 / 2 := by
    rw [show (1 / 4 : ℝ) = (1 / 2) ^ 2 by norm_num, Real.sqrt_sq (by norm_num)]
  rw [hs]
  norm_num

/-! ### Claim C9: modulus outside [0,1] propagates a failure -/

/-- C9: a modulus outside `[0, 1]` makes `K_ratio` fall through with no
numeric value (`none`), and `Z0` propagates that failure instead of
returning a number. -/
theorem K_ratio_out_of_range (c : CPW) (h : c.k1 < 0 ∨ 1 < c.k1) :
    c.K_ratio = none ∧ c.Z0 = none := by
  have hg1 : ¬(0 ≤ c.k1 ∧ c.k1 ≤ 1 / Real.sqrt 2) := by
    rcases h with h | h
    · exact fun hc => absurd hc.1 (not_le.2 h)
    · exact fun hc => absurd (lt_of_le_of_lt (hc.2.trans inv_sqrt_two_le_one) h)
        (lt_irrefl _)
  have hg2 : ¬(1 / Real.sqrt 2 < c.k1 ∧ c.k1 ≤ 1) := by
    rcases h with h | h
    · exact fun hc => absurd (lt_trans inv_sqrt_two_pos hc.1) (not_lt.2 (le_of_lt h))
    · exact fun hc => absurd hc.2 (not_le.2 h)
  have hK : c.K_ratio = none := by
    unfold CPW.K_ratio
    rw [if_neg hg1, if_neg hg2]
  exact ⟨hK, by unfold CPW.Z0; rw [hK]; rfl⟩

/-- Witness for C9 at `w = -1, s = 1` (so `k1 = -1 < 0`). -/
theorem K_ratio_out_of_range_witness :
    (CPW.mk (-1) 1 3 none none [1]).k1 < 0 ∧
    (CPW.mk (-1) 1 3 none none [1]).K_ratio = none ∧
    (CPW.mk (-1) 1 3 none none [1]).Z0 = none := by
  have hk : (CPW.mk (-1) 1 3 none none [1]).k1 < 0 := by
    unfold CPW.k1; norm_num
  exact ⟨hk, K_ratio_out_of_range _ (Or.inl hk)⟩

/-! ### Claim C10: the default-constructed model -/

/-- C10: constructing the model with no geometry or material arguments
yields `w=70, s=4, ep_r=3, t=None, rho=None`; for that store the modulus is
`70/78`, the effective permittivity average is `2`, and the propagation
constant has zero real part (zero attenuation) at every sample. -/
theorem default_construction (fs : List ℝ) (ek : ℝ → ℝ) (sr : ℝ → ℝ → ℝ → ℝ) :
    (CPW.mkDefault fs).w = 70 ∧ (CPW.mkDefault fs).s = 4 ∧
    (CPW.mkDefault fs).ep_r = 3 ∧ (CPW.mkDefault fs).t = none ∧
    (CPW.mkDefault fs).rho = none ∧
    (CPW.mkDefault fs).k1 = 70 / 78 ∧ (CPW.mkDefault fs).ep_re = 2 ∧
    (CPW.mkDefault fs).gamma ek sr = some (fs.map (fun f =>
      ⟨0, 2 * Real.pi * f * Real.sqrt (((3 + 1) / 2) * epsilon_0 * mu_0)⟩)) ∧
    ∀ z ∈ (fs.map (fun f =>
      (⟨0, 2 * Real.pi * f * Real.sqrt (((3 + 1) / 2) * epsilon_0 * mu_0)⟩ : ℂ))),
      z.re = 0 := by
  refine ⟨rfl, rfl, rfl, rfl, rfl, ?_, ?_, ?_, ?_⟩
  · unfold CPW.k1 CPW.mkDefault; norm_num
  · unfold CPW.ep_re CPW.mkDefault; norm_num
  · exact gamma_eq_beta ek sr _ (Or.inl rfl)
  · intro z hz
    rcases List.mem_map.1 hz with ⟨f, _, rfl⟩
    rfl

/-! ### Claim C4: lossless propagation constant -/

/-- C4: with `t` or `rho` unset, every sample of the propagation constant
has real part exactly zero and imaginary part
`2*pi*f*sqrt(ep_re*epsilon_0*mu_0)` with `ep_re = (ep_r+1)/2`. -/
theorem gamma_lossless (ek : ℝ → ℝ) (sr : ℝ → ℝ → ℝ → ℝ) (c : CPW)
    (h : c.t = none ∨ c.rho = none) :
    c.gamma ek sr = some (c.frequency.map (fun f =>
      ⟨0, 2 * Real.pi * f * Real.sqrt (((c.ep_r + 1) / 2) * epsilon_0 * mu_0)⟩)) :=
  gamma_eq_beta ek sr c h

/-- Witness for C4 at the default store over a one-point sweep. -/
theorem gamma_lossless_witness :
    CPW.gamma (fun _ => 0) (fun _ _ _ => 0) (CPW.mkDefault [1]) =
      some [⟨0, 2 * Real.pi * 1 * Real.sqrt (((3 + 1) / 2) * epsilon_0 * mu_0)⟩] := by
  have h := gamma_lossless (fun _ => 0) (fun _ _ _ => 0) (CPW.mkDefault [1])
    (Or.inl rfl)
  rw [h]
  rfl

/-! ### Claim C3 (corrected): missing parameters -/

/-- Counterexample to C3 as stated: the default store has `t` unset, yet
the propagation-constant accessor does not raise — it returns a complete
numeric (purely imaginary) result. -/
theorem gamma_missing_counterexample :
    (CPW.mkDefault [1]).t = none ∧
    CPW.gamma (fun _ => 0) (fun _ _ _ => 0) (CPW.mkDefault [1]) =
      some [⟨0, 2 * Real.pi * 1 * Real.sqrt (((3 + 1) / 2) * epsilon_0 * mu_0)⟩] := by
  refine ⟨rfl, ?_⟩
  rw [gamma_eq_beta (fun _ => 0) (fun _ _ _ => 0) (CPW.mkDefault [1]) (Or.inl rfl)]
  rfl

/-- C3 as amended: with `t` or `rho` unset, the conductor-loss accessor
raises MissingParameter (no numeric result, modelled `none`); the
propagation-constant accessor does not raise — it never requests conductor
loss and returns the lossless numeric result with zero attenuation. -/
theorem alpha_conductor_missing_parameter (ek : ℝ → ℝ) (sr : ℝ → ℝ → ℝ → ℝ)
    (c : CPW) (h : c.t = none ∨ c.rho = none) :
    c.alpha_conductor ek sr = none ∧
    c.gamma ek sr = some (c.frequency.map (fun f =>
      ⟨0, 2 * Real.pi * f * Real.sqrt (((c.ep_r + 1) / 2) * epsilon_0 * mu_0)⟩)) :=
  ⟨alpha_conductor_none ek sr c h, gamma_eq_beta ek sr c h⟩

/-- Witness for the amended C3 at the default store over a two-point
sweep. -/
theorem alpha_conductor_missing_parameter_witness :
    CPW.alpha_conductor (fun _ => 0) (fun _ _ _ => 0) (CPW.mkDefault [1, 2]) = none ∧
    CPW.gamma (fun _ => 0) (fun _ _ _ => 0) (CPW.mkDefault [1, 2]) =
      some [⟨0, 2 * Real.pi * 1 * Real.sqrt (((3 + 1) / 2) * epsilon_0 * mu_0)⟩,
            ⟨0, 2 * Real.pi * 2 * Real.sqrt (((3 + 1) / 2) * epsilon_0 * mu_0)⟩] := by
  have h := alpha_conductor_missing_parameter (fun _ => 0) (fun _ _ _ => 0)
    (CPW.mkDefault [1, 2]) (Or.inl rfl)
  exact ⟨h.1, h.2.trans rfl⟩

/-! ### Claim C5 (code bug): the ratio is not increasing -/

/-- Evaluation of the code at the failing input for C5: the moduli `1/4`
(from `w=2, s=3`) and `1/2` (from `w=2, s=1`) both take the first branch,
and the computed ratio at the larger modulus is strictly smaller — the
code's first branch `pi/log(2(1+sqrt k)/(1-sqrt k))` decreases in `k`,
contradicting the claimed strict increase. -/
theorem K_ratio_first_branch_decreasing :
    (CPW.mk 2 3 3 none none [1]).k1 < (CPW.mk 2 1 3 none none [1]).k1 ∧
    (CPW.mk 2 3 3 none none [1]).K_ratio = some (Kbranch1 (1 / 4)) ∧
    (CPW.mk 2 1 3 none none [1]).K_ratio = some (Kbranch1 (1 / 2)) ∧
    Kbranch1 (1 / 2) < Kbranch1 (1 / 4) := by
  have hs2le : Real.sqrt 2 ≤ 2 := by
    nlinarith [Real.sq_sqrt (show (0 : ℝ) ≤ 2 by norm_num), Real.sqrt_nonneg 2]
  have hkA : (CPW.mk 2 3 3 none none [1]).k1 = 1 / 4 := by
    unfold CPW.k1; norm_num
  have hkB : (CPW.mk 2 1 3 none none [1]).k1 = 1 / 2 := by
    unfold CPW.k1; norm_num
  have h14 : (1 / 4 : ℝ) ≤ 1 / Real.sqrt 2 := by
    rw [div_le_div_iff₀ (by norm_num) sqrt_two_pos]
    nlinarith
  have h12 : (1 / 2 : ℝ) ≤ 1 / Real.sqrt 2 := by
    rw [div_le_div_iff₀ (by norm_num) sqrt_two_pos]
    nlinarith
  have hLA : logArg (1 / 4) = 6 := by
    unfold logArg
    rw [show (1 / 4 : ℝ) = (1 / 2) ^ 2 by norm_num, Real.sqrt_sq (by norm_num)]
    norm_num
  have hr0 : (1 / 2 : ℝ) < Real.sqrt (1 / 2) :=
    (Real.lt_sqrt (by norm_num)).2 (by norm_num)
  have hr1 : Real.sqrt (1 / 2) < 1 :=
    (Real.sqrt_lt' (by norm_num)).2 (by norm_num)
  have hLB : (6 : ℝ) < logArg (1 / 2) := by
    unfold logArg
    rw [lt_div_iff₀ (by linarith)]
    nlinarith
  refine ⟨by rw [hkA, hkB]; norm_num, ?_, ?_, ?_⟩
  · unfold CPW.K_ratio
    rw [hkA, if_pos ⟨by norm_num, h14⟩]
  · unfold CPW.K_ratio
    rw [hkB, if_pos ⟨by norm_num, h12⟩]
  · unfold Kbranch1
    rw [hLA]
    exact div_lt_div_of_pos_left Real.pi_pos
      (Real.log_pos (by norm_num))
      (Real.log_lt_log (by norm_num) hLB)

/-! ### Claim C2: the conductor-loss formula -/

/-- C2: with both `t` and `rho` set, `alpha_conductor` returns, per
frequency sample `f`, the surface resistivity `sr f rho 1` (relative
permeability fixed at 1) times
`sqrt(ep_re)/(480*pi*K(k1)*K'(k1)*(1-k1^2))` times
`(1/a)(pi + log(8*pi*a*(1-k1)/(t*(1+k1)))) + (1/b)(...)`, with `a = w/2`,
`b = s + w/2`, `K = ek` the complete elliptic integral of the first kind
and `K'(k1) = K(sqrt(1-k1^2))`. -/
theorem alpha_conductor_formula (ek : ℝ → ℝ) (sr : ℝ → ℝ → ℝ → ℝ) (c : CPW)
    (tv rv : ℝ) (ht : c.t = some tv) (hr : c.rho = some rv) :
    c.alpha_conductor ek sr = some (c.frequency.map (fun f =>
      sr f rv 1 * Real.sqrt ((c.ep_r + 1) / 2) /
          (480 * Real.pi * ek (c.w / (c.w + 2 * c.s)) *
            ek (Real.sqrt (1 - (c.w / (c.w + 2 * c.s)) ^ 2)) *
            (1 - (c.w / (c.w + 2 * c.s)) ^ 2)) *
        (1 / (c.w / 2) * (Real.pi + Real.log (8 * Real.pi * (c.w / 2) *
            (1 - c.w / (c.w + 2 * c.s)) / (tv * (1 + c.w / (c.w + 2 * c.s))))) +
         1 / (c.s + c.w / 2) * (Real.pi + Real.log (8 * Real.pi * (c.s + c.w / 2) *
            (1 - c.w / (c.w + 2 * c.s)) / (tv * (1 + c.w / (c.w + 2 * c.s)))))))) := by
  unfold CPW.alpha_conductor
  rw [hr, ht]
  rfl

/-- Witness for C2 at `w=2, s=1, ep_r=3, t=1, rho=1` (so `k1 = 1/2`,
`a = 1`, `b = 2`) with constant collaborators `ek = 1`, `sr = 1`. -/
theorem alpha_conductor_formula_witness :
    CPW.alpha_conductor (fun _ => 1) (fun _ _ _ => 1)
      (CPW.mk 2 1 3 (some 1) (some 1) [5]) =
      some [1 * Real.sqrt ((3 + 1) / 2) /
          (480 * Real.pi * 1 * 1 * (1 - (2 / (2 + 2 * 1) : ℝ) ^ 2)) *
        (1 / (2 / 2) * (Real.pi + Real.log (8 * Real.pi * (2 / 2) *
            (1 - 2 / (2 + 2 * 1)) / (1 * (1 + 2 / (2 + 2 * 1))))) +
         1 / (1 + 2 / 2) * (Real.pi + Real.log (8 * Real.pi * (1 + 2 / 2) *
            (1 - 2 / (2 + 2 * 1)) / (1 * (1 + 2 / (2 + 2 * 1))))))] := by
  have h := alpha_conductor_formula (fun _ => 1) (fun _ _ _ => 1)
    (CPW.mk 2 1 3 (some 1) (some 1) [5]) 1 1 rfl rfl
  rw [h]
  rfl

/-! ### Claim C7: impedance positivity and permittivity monotonicity -/

/-- C7: for valid geometry (`w > 0`, `s > 0`, `ep_r >= 0`) the
characteristic impedance is a defined per-sample constant with strictly
positive real part, and raising `ep_r` (geometry fixed) strictly lowers
that real part. -/
theorem Z0_positive_decreasing (w s e e2 : ℝ) (t rho t2 rho2 : Option ℝ)
    (fs : List ℝ) (hw : 0 < w) (hs : 0 < s) (he : 0 ≤ e) (he2 : e < e2) :
    (CPW.mk w s e t rho fs).Z0 = some (fs.map (fun _ =>
      ((30 * Real.pi / Real.sqrt ((e + 1) / 2) * Kval (w / (w + 2 * s)) : ℝ) : ℂ))) ∧
    (∀ z ∈ fs.map (fun _ =>
      ((30 * Real.pi / Real.sqrt ((e + 1) / 2) * Kval (w / (w + 2 * s)) : ℝ) : ℂ)),
      0 < z.re) ∧
    (CPW.mk w s e2 t2 rho2 fs).Z0 = some (fs.map (fun _ =>
      ((30 * Real.pi / Real.sqrt ((e2 + 1) / 2) * Kval (w / (w + 2 * s)) : ℝ) : ℂ))) ∧
    30 * Real.pi / Real.sqrt ((e2 + 1) / 2) * Kval (w / (w + 2 * s)) <
      30 * Real.pi / Real.sqrt ((e + 1) / 2) * Kval (w / (w + 2 * s)) := by
  have hk := k1_mem_Ioo (CPW.mk w s e t rho fs) hw hs
  have hk2 := k1_mem_Ioo (CPW.mk w s e2 t2 rho2 fs) hw hs
  have hKr := K_ratio_eq_Kval (CPW.mk w s e t rho fs) hk.1.le hk.2.le
  have hKr2 := K_ratio_eq_Kval (CPW.mk w s e2 t2 rho2 fs) hk2.1.le hk2.2.le
  have hKpos : 0 < Kval (w / (w + 2 * s)) := Kval_pos _ hk.1.le hk.2
  have hsq1 : 0 < Real.sqrt ((e + 1) / 2) := Real.sqrt_pos.2 (by linarith)
  have hfac : 0 < 30 * Real.pi / Real.sqrt ((e + 1) / 2) :=
    div_pos (by positivity) hsq1
  refine ⟨?_, ?_, ?_, ?_⟩
  · unfold CPW.Z0
    rw [hKr]
    rfl
  · intro z hz
    rcases List.mem_map.1 hz with ⟨f, _, rfl⟩
    rw [Complex.ofReal_re]
    exact mul_pos hfac hKpos
  · unfold CPW.Z0
    rw [hKr2]
    rfl
  · have hsqlt : Real.sqrt ((e + 1) / 2) < Real.sqrt ((e2 + 1) / 2) :=
      Real.sqrt_lt_sqrt (by linarith) (by linarith)
    exact mul_lt_mul_of_pos_right
      (div_lt_div_of_pos_left (by positivity) hsq1 hsqlt) hKpos

/-- Witness for C7 at `w=2, s=1`, `ep_r` raised from `0` to `3`, one-point
sweep. -/
theorem Z0_positive_decreasing_witness :
    (CPW.mk 2 1 0 none none [1]).Z0 = some ([(1 : ℝ)].map (fun _ =>
      ((30 * Real.pi / Real.sqrt ((0 + 1) / 2) * Kval (2 / (2 + 2 * 1) : ℝ) : ℝ) : ℂ))) ∧
    (∀ z ∈ [(1 : ℝ)].map (fun _ =>
      ((30 * Real.pi / Real.sqrt ((0 + 1) / 2) * Kval (2 / (2 + 2 * 1) : ℝ) : ℝ) : ℂ)),
      0 < z.re) ∧
    (CPW.mk 2 1 3 none none [1]).Z0 = some ([(1 : ℝ)].map (fun _ =>
      ((30 * Real.pi / Real.sqrt ((3 + 1) / 2) * Kval (2 / (2 + 2 * 1) : ℝ) : ℝ) : ℂ))) ∧
    30 * Real.pi / Real.sqrt (((3 : ℝ) + 1) / 2) * Kval (2 / (2 + 2 * 1) : ℝ) <
      30 * Real.pi / Real.sqrt (((0 : ℝ) + 1) / 2) * Kval (2 / (2 + 2 * 1) : ℝ) :=
  Z0_positive_decreasing 2 1 0 3 none none none none [1]
    (by norm_num) (by norm_num) (by norm_num) (by norm_num)

/-! ### Claim C8 (corrected): output lengths by input shape -/

/-- Counterexample to C8 as stated: with valid per-frequency-array
geometry over a two-point sweep, the characteristic-impedance accessor
raises (numpy refuses to coerce the two-element comparison array to a
boolean in `K_ratio`'s branch test) instead of returning a length-2
sequence. -/
theorem Z0_array_counterexample :
    (CPWarr.mk [2, 2] [1, 1] [3, 3] none none [1, 2]).frequency.length = 2 ∧
    (CPWarr.mk [2, 2] [1, 1] [3, 3] none none [1, 2]).Z0 = none :=
  ⟨rfl, rfl⟩

/-- C8 as amended: with scalar geometry both accessors return sequences of
length equal to the number of frequency samples; with per-frequency-array
geometry the propagation constant still does, but the
characteristic-impedance accessor raises on any sweep of two or more
samples. -/
theorem output_lengths_by_shape :
    (∀ (ek : ℝ → ℝ) (sr : ℝ → ℝ → ℝ → ℝ) (c : CPW), 0 < c.w → 0 < c.s →
      (c.Z0).map List.length = some c.frequency.length ∧
      (c.gamma ek sr).map List.length = some c.frequency.length) ∧
    (∀ c : CPWarr, c.w.length = c.frequency.length →
      c.s.length = c.frequency.length → 2 ≤ c.frequency.length →
      c.Z0 = none) ∧
    (∀ (ek : ℝ → ℝ) (sr : ℝ → ℝ → ℝ → ℝ) (c : CPWarr),
      c.w.length = c.frequency.length → c.s.length = c.frequency.length →
      c.ep_r.length = c.frequency.length →
      (c.gamma ek sr).map List.length = some c.frequency.length) := by
  refine ⟨fun ek sr c hw hs => ⟨?_, ?_⟩, fun c hw hs h2 => ?_, fun ek sr c hw hs he => ?_⟩
  · have hk := k1_mem_Ioo c hw hs
    rw [CPW.Z0, K_ratio_eq_Kval c hk.1.le hk.2.le]
    simp
  · rcases hr : c.rho with _ | rv
    · simp [CPW.gamma, hr]
    · rcases ht : c.t with _ | tv
      · simp [CPW.gamma, hr, ht]
      · simp [CPW.gamma, CPW.alpha_conductor, hr, ht, List.length_zipWith]
  · have hlen : (c.k1).length = c.frequency.length := by
      rw [CPWarr.k1, List.length_zipWith, hw, hs, min_self]
    have hnone : c.K_ratio = none := by
      rw [CPWarr.K_ratio]
      rcases hk : c.k1 with _ | ⟨x, _ | ⟨y, tl⟩⟩
      · rfl
      · rw [hk] at hlen
        simp at hlen
        omega
      · rfl
    rw [CPWarr.Z0, hnone]
    rfl
  · rcases hr : c.rho with _ | rv
    · simp [CPWarr.gamma, hr, List.length_zipWith, he]
    · rcases ht : c.t with _ | tv
      · simp [CPWarr.gamma, hr, ht, List.length_zipWith, he]
      · simp [CPWarr.gamma, CPWarr.alpha_conductor, hr, ht, List.length_zipWith,
          List.length_zip, he, hw, hs]

/-- Witness for the amended C8: the scalar store `w=2, s=1` and the
two-sample array store, with constant collaborators. -/
theorem output_lengths_by_shape_witness :
    ((CPW.mk 2 1 3 none none [1, 2]).Z0).map List.length = some 2 ∧
    ((CPW.mk 2 1 3 none none [1, 2]).gamma (fun _ => 0)
      (fun _ _ _ => 0)).map List.length = some 2 ∧
    (CPWarr.mk [2, 2] [1, 1] [3, 3] none none [1, 2]).Z0 = none ∧
    ((CPWarr.mk [2, 2] [1, 1] [3, 3] none none [1, 2]).gamma (fun _ => 0)
      (fun _ _ _ => 0)).map List.length = some 2 := by
  have h := output_lengths_by_shape
  have h1 := h.1 (fun _ => 0) (fun _ _ _ => 0) (CPW.mk 2 1 3 none none [1, 2])
    (by norm_num) (by norm_num)
  have h2 := h.2.1 (CPWarr.mk [2, 2] [1, 1] [3, 3] none none [1, 2]) rfl rfl
    (by norm_num)
  have h3 := h.2.2 (fun _ => 0) (fun _ _ _ => 0)
    (CPWarr.mk [2, 2] [1, 1] [3, 3] none none [1, 2]) rfl rfl rfl
  exact ⟨h1.1, h1.2, h2, h3⟩

/-! ### Claim C6: the two branch formulas at the switch point -/

lemma c6_sqrt_bounds :
    (0.84089641 : ℝ) < Real.sqrt (1 / Real.sqrt 2) ∧
    Real.sqrt (1 / Real.sqrt 2) < 0.84089642 := by
  have hk0 : (0 : ℝ) < 1 / Real.sqrt 2 := inv_sqrt_two_pos
  have h4 : Real.sqrt (1 / Real.sqrt 2) ^ 4 = 1 / 2 := by
    have h2 : Real.sqrt (1 / Real.sqrt 2) ^ 2 = 1 / Real.sqrt 2 :=
      Real.sq_sqrt hk0.le
    have hs2 : Real.sqrt 2 ^ 2 = 2 := Real.sq_sqrt (by norm_num)
    have : Real.sqrt (1 / Real.sqrt 2) ^ 4 =
        (Real.sqrt (1 / Real.sqrt 2) ^ 2) ^ 2 := by ring
    rw [this, h2, div_pow, one_pow, hs2]
  constructor
  · by_contra h
    push_neg at h
    have := pow_le_pow_left₀ (Real.sqrt_nonneg _) h 4
    rw [h4] at this
    norm_num at this
  · by_contra h
    push_neg at h
    have := pow_le_pow_left₀ (show (0 : ℝ) ≤ 0.84089642 by norm_num) h 4
    rw [h4] at this
    norm_num at this

lemma c6_logArg_bounds :
    (23.140853 : ℝ) < logArg (1 / Real.sqrt 2) ∧
    logArg (1 / Real.sqrt 2) < 23.140855 := by
  obtain ⟨hc1, hc2⟩ := c6_sqrt_bounds
  have h1c : (0 : ℝ) < 1 - Real.sqrt (1 / Real.sqrt 2) := by linarith
  unfold logArg
  constructor
  · rw [lt_div_iff₀ h1c]
    nlinarith
  · rw [div_lt_iff₀ h1c]
    nlinarith

lemma c6_exp_lower : (23.140855 : ℝ) < Real.exp (3.141617 : ℝ) := by
  have hsum : (1 + 0.141617 + 0.141617 ^ 2 / 2 + 0.141617 ^ 3 / 6 +
      0.141617 ^ 4 / 24 + 0.141617 ^ 5 / 120 : ℝ) ≤ Real.exp (0.141617 : ℝ) := by
    have h := Real.sum_le_exp_of_nonneg (show (0 : ℝ) ≤ 0.141617 by norm_num) 6
    refine le_trans (le_of_eq ?_) h
    rw [Finset.sum_range_succ, Finset.sum_range_succ, Finset.sum_range_succ,
        Finset.sum_range_succ, Finset.sum_range_succ, Finset.sum_range_succ,
        Finset.sum_range_zero]
    norm_num [Nat.factorial]
  have ha : (2.7182818283 : ℝ) ≤ Real.exp 1 := Real.exp_one_gt_d9.le
  have hp : (0 : ℝ) < Real.exp 1 := Real.exp_pos 1
  have h2 : (2.7182818283 : ℝ) * 2.7182818283 ≤ Real.exp 1 * Real.exp 1 :=
    mul_le_mul ha ha (by norm_num) hp.le
  have h3 : (2.7182818283 : ℝ) * 2.7182818283 * 2.7182818283 ≤
      Real.exp 1 * Real.exp 1 * Real.exp 1 :=
    mul_le_mul h2 ha (by norm_num) (by positivity)
  have hmul : (2.7182818283 : ℝ) * 2.7182818283 * 2.7182818283 *
      (1 + 0.141617 + 0.141617 ^ 2 / 2 + 0.141617 ^ 3 / 6 +
        0.141617 ^ 4 / 24 + 0.141617 ^ 5 / 120) ≤
      Real.exp 1 * Real.exp 1 * Real.exp 1 * Real.exp (0.141617 : ℝ) :=
    mul_le_mul h3 hsum (by norm_num) (by positivity)
  have heq : Real.exp 1 * Real.exp 1 * Real.exp 1 * Real.exp (0.141617 : ℝ) =
      Real.exp (3.141617 : ℝ) := by
    rw [← Real.exp_add, ← Real.exp_add, ← Real.exp_add]
    norm_num
  rw [← heq]
  refine lt_of_lt_of_le ?_ hmul
  norm_num

lemma c6_exp_upper : Real.exp (3.141568 : ℝ) < 23.140853 := by
  have hb := Real.exp_bound' (show (0 : ℝ) ≤ 0.141568 by norm_num)
    (show (0.141568 : ℝ) ≤ 1 by norm_num) (show 0 < 6 by norm_num)
  have hsum : Real.exp (0.141568 : ℝ) ≤
      1 + 0.141568 + 0.141568 ^ 2 / 2 + 0.141568 ^ 3 / 6 +
      0.141568 ^ 4 / 24 + 0.141568 ^ 5 / 120 + 0.141568 ^ 6 * 7 / (720 * 6) := by
    refine le_trans hb (le_of_eq ?_)
    rw [Finset.sum_range_succ, Finset.sum_range_succ, Finset.sum_range_succ,
        Finset.sum_range_succ, Finset.sum_range_succ, Finset.sum_range_succ,
        Finset.sum_range_zero]
    norm_num [Nat.factorial]
  have ha : Real.exp 1 ≤ (2.7182818286 : ℝ) := Real.exp_one_lt_d9.le
  have hp : (0 : ℝ) < Real.exp 1 := Real.exp_pos 1
  have h2 : Real.exp 1 * Real.exp 1 ≤ (2.7182818286 : ℝ) * 2.7182818286 :=
    mul_le_mul ha ha hp.le (by norm_num)
  have h3 : Real.exp 1 * Real.exp 1 * Real.exp 1 ≤
      (2.7182818286 : ℝ) * 2.7182818286 * 2.7182818286 :=
    mul_le_mul h2 ha hp.le (by norm_num)
  have hmul : Real.exp 1 * Real.exp 1 * Real.exp 1 * Real.exp (0.141568 : ℝ) ≤
      (2.7182818286 : ℝ) * 2.7182818286 * 2.7182818286 *
      (1 + 0.141568 + 0.141568 ^ 2 / 2 + 0.141568 ^ 3 / 6 +
        0.141568 ^ 4 / 24 + 0.141568 ^ 5 / 120 + 0.141568 ^ 6 * 7 / (720 * 6)) :=
    mul_le_mul h3 hsum (Real.exp_pos _).le (by norm_num)
  have heq : Real.exp 1 * Real.exp 1 * Real.exp 1 * Real.exp (0.141568 : ℝ) =
      Real.exp (3.141568 : ℝ) := by
    rw [← Real.exp_add, ← Real.exp_add, ← Real.exp_add]
    norm_num
  rw [← heq]
  refine lt_of_le_of_lt hmul ?_
  norm_num

lemma c6_log_bounds :
    Real.pi - 1 / 40000 < Real.log (logArg (1 / Real.sqrt 2)) ∧
    Real.log (logArg (1 / Real.sqrt 2)) < Real.pi + 1 / 40000 := by
  obtain ⟨hA1, hA2⟩ := c6_logArg_bounds
  have hApos : (0 : ℝ) < logArg (1 / Real.sqrt 2) := by linarith
  constructor
  · rw [Real.lt_log_iff_exp_lt hApos]
    have h1 : Real.exp (Real.pi - 1 / 40000) ≤ Real.exp (3.141568 : ℝ) :=
      Real.exp_le_exp.2 (by have := Real.pi_lt_d6; linarith)
    calc Real.exp (Real.pi - 1 / 40000) ≤ Real.exp (3.141568 : ℝ) := h1
      _ < 23.140853 := c6_exp_upper
      _ < logArg (1 / Real.sqrt 2) := hA1
  · rw [Real.log_lt_iff_lt_exp hApos]
    have h1 : Real.exp (3.141617 : ℝ) ≤ Real.exp (Real.pi + 1 / 40000) :=
      Real.exp_le_exp.2 (by have := Real.pi_gt_d6; linarith)
    calc logArg (1 / Real.sqrt 2) < 23.140855 := hA2
      _ < Real.exp (3.141617 : ℝ) := c6_exp_lower
      _ ≤ Real.exp (Real.pi + 1 / 40000) := h1

/-- C6: at the branch point `k1 = 1/sqrt 2` the two branch formulas of the
elliptic ratio agree to within `1/50000` (well inside numerical tolerance),
so the branch switch is continuous at the boundary to that tolerance. -/
theorem branch_formulas_agree_at_switch :
    |Kbranch1 (1 / Real.sqrt 2) - Kbranch2 (1 / Real.sqrt 2)| < 1 / 50000 := by
  obtain ⟨hL1, hL2⟩ := c6_log_bounds
  have hpi1 := Real.pi_gt_d6
  have hpi2 := Real.pi_lt_d6
  have hLpos : (0 : ℝ) < Real.log (logArg (1 / Real.sqrt 2)) := by linarith
  have hKb1 : Kbranch1 (1 / Real.sqrt 2) =
      Real.pi / Real.log (logArg (1 / Real.sqrt 2)) := rfl
  have hKb2 : Kbranch2 (1 / Real.sqrt 2) =
      Real.log (logArg (1 / Real.sqrt 2)) / Real.pi := rfl
  rw [hKb1, hKb2, abs_sub_lt_iff]
  constructor
  · rw [div_sub_div _ _ (ne_of_gt hLpos) (ne_of_gt Real.pi_pos),
      div_lt_iff₀ (by positivity)]
    nlinarith [mul_pos hLpos Real.pi_pos]
  · rw [div_sub_div _ _ (ne_of_gt Real.pi_pos) (ne_of_gt hLpos),
      div_lt_iff₀ (by positivity)]
    nlinarith [mul_pos hLpos Real.pi_pos]
